import Mathlib

/-!
# Verification of `backup.py` (zabbix-review-export)

Shallow embedding of the serialization / normalization core of `backup.py`:
Python objects as an inductive `PyObj`, with the functions `remove_none`,
`order_data`, the filename sanitization of `dumps_json` / `dump_xml`, the
`<date>` stripping regex of `dump_xml`, the `json.dumps(·, indent=4)`
serialization, and the write behaviour of `dumps_json` as an event trace.
-/

/-- A Python value as handled by `backup.py`: the JSON/YAML-style data coming
back from the Zabbix API, plus the `tuple`/`set` container shapes that
`remove_none` distinguishes.  Dict entries are kept as an association list in
insertion order (Python 3.7+ dicts / `OrderedDict`). -/
inductive PyObj where
  | none
  | bool (b : Bool)
  | int (n : Int)
  | str (s : String)
  | list (xs : List PyObj)
  | tuple (xs : List PyObj)
  | set (xs : List PyObj)
  | dict (kvs : List (PyObj × PyObj))
  deriving Repr

mutual
/-- Structural equality test on `PyObj` (Python `==` on these value shapes). -/
def pyBeq : PyObj → PyObj → Bool
  | .none, .none => true
  | .bool a, .bool b => a == b
  | .int a, .int b => a == b
  | .str a, .str b => a == b
  | .list a, .list b => pyBeqList a b
  | .tuple a, .tuple b => pyBeqList a b
  | .set a, .set b => pyBeqList a b
  | .dict a, .dict b => pyBeqEntries a b
  | _, _ => false

def pyBeqList : List PyObj → List PyObj → Bool
  | [], [] => true
  | x :: xs, y :: ys => pyBeq x y && pyBeqList xs ys
  | _, _ => false

def pyBeqEntries : List (PyObj × PyObj) → List (PyObj × PyObj) → Bool
  | [], [] => true
  | (k, v) :: xs, (k', v') :: ys => pyBeq k k' && pyBeq v v' && pyBeqEntries xs ys
  | _, _ => false
end

mutual
theorem pyBeq_refl : ∀ a, pyBeq a a = true
  | .none => rfl
  | .bool a => by simp [pyBeq]
  | .int a => by simp [pyBeq]
  | .str a => by simp [pyBeq]
  | .list a => by simp [pyBeq, pyBeqList_refl a]
  | .tuple a => by simp [pyBeq, pyBeqList_refl a]
  | .set a => by simp [pyBeq, pyBeqList_refl a]
  | .dict a => by simp [pyBeq, pyBeqEntries_refl a]

theorem pyBeqList_refl : ∀ a, pyBeqList a a = true
  | [] => rfl
  | x :: xs => by simp [pyBeqList, pyBeq_refl x, pyBeqList_refl xs]

theorem pyBeqEntries_refl : ∀ a, pyBeqEntries a a = true
  | [] => rfl
  | (k, v) :: xs => by
      simp [pyBeqEntries, pyBeq_refl k, pyBeq_refl v, pyBeqEntries_refl xs]
end

mutual
theorem pyBeq_sound : ∀ a b, pyBeq a b = true → a = b
  | .none, .none, _ => rfl
  | .bool a, .bool b, h => by simpa [pyBeq] using h
  | .int a, .int b, h => by simpa [pyBeq] using h
  | .str a, .str b, h => by simpa [pyBeq] using h
  | .list a, .list b, h => by
      rw [pyBeqList_sound a b (by simpa [pyBeq] using h)]
  | .tuple a, .tuple b, h => by
      rw [pyBeqList_sound a b (by simpa [pyBeq] using h)]
  | .set a, .set b, h => by
      rw [pyBeqList_sound a b (by simpa [pyBeq] using h)]
  | .dict a, .dict b, h => by
      rw [pyBeqEntries_sound a b (by simpa [pyBeq] using h)]
  | .none, .bool _, h | .none, .int _, h | .none, .str _, h | .none, .list _, h
  | .none, .tuple _, h | .none, .set _, h | .none, .dict _, h
  | .bool _, .none, h | .bool _, .int _, h | .bool _, .str _, h | .bool _, .list _, h
  | .bool _, .tuple _, h | .bool _, .set _, h | .bool _, .dict _, h
  | .int _, .none, h | .int _, .bool _, h | .int _, .str _, h | .int _, .list _, h
  | .int _, .tuple _, h | .int _, .set _, h | .int _, .dict _, h
  | .str _, .none, h | .str _, .bool _, h | .str _, .int _, h | .str _, .list _, h
  | .str _, .tuple _, h | .str _, .set _, h | .str _, .dict _, h
  | .list _, .none, h | .list _, .bool _, h | .list _, .int _, h | .list _, .str _, h
  | .list _, .tuple _, h | .list _, .set _, h | .list _, .dict _, h
  | .tuple _, .none, h | .tuple _, .bool _, h | .tuple _, .int _, h | .tuple _, .str _, h
  | .tuple _, .list _, h | .tuple _, .set _, h | .tuple _, .dict _, h
  | .set _, .none, h | .set _, .bool _, h | .set _, .int _, h | .set _, .str _, h
  | .set _, .list _, h | .set _, .tuple _, h | .set _, .dict _, h
  | .dict _, .none, h | .dict _, .bool _, h | .dict _, .int _, h | .dict _, .str _, h
  | .dict _, .list _, h | .dict _, .tuple _, h | .dict _, .set _, h => by
      simp [pyBeq] at h

theorem pyBeqList_sound : ∀ a b, pyBeqList a b = true → a = b
  | [], [], _ => rfl
  | x :: xs, y :: ys, h => by
      have h' := by simpa [pyBeqList] using h
      rw [pyBeq_sound x y h'.1, pyBeqList_sound xs ys h'.2]
  | [], _ :: _, h => by simp [pyBeqList] at h
  | _ :: _, [], h => by simp [pyBeqList] at h

theorem pyBeqEntries_sound : ∀ a b, pyBeqEntries a b = true → a = b
  | [], [], _ => rfl
  | (k, v) :: xs, (k', v') :: ys, h => by
      have h' := by simpa [pyBeqEntries] using h
      rw [pyBeq_sound k k' h'.1.1, pyBeq_sound v v' h'.1.2,
        pyBeqEntries_sound xs ys h'.2]
  | [], _ :: _, h => by simp [pyBeqEntries] at h
  | _ :: _, [], h => by simp [pyBeqEntries] at h
end

instance : DecidableEq PyObj := fun a b =>
  if h : pyBeq a b = true then isTrue (pyBeq_sound a b h)
  else isFalse (fun he => h (he ▸ pyBeq_refl a))

/-- `x is None` test used by the comprehensions in `remove_none`. -/
def PyObj.isNone : PyObj → Bool
  | .none => true
  | _ => false

mutual
/-- `remove_none` from backup.py (lines 18-31): strips `None` elements from
lists, tuples and sets and `None`-keyed or `None`-valued entries from dicts,
recursively; any other object is returned unchanged. -/
def remove_none : PyObj → PyObj
  | .list xs => .list (remove_none_seq xs)
  | .tuple xs => .tuple (remove_none_seq xs)
  | .set xs => .set (remove_none_seq xs)
  | .dict kvs => .dict (remove_none_dict kvs)
  | x => x

/-- The generator `(remove_none(x) for x in obj if x is not None)`. -/
def remove_none_seq : List PyObj → List PyObj
  | [] => []
  | x :: xs =>
    if x.isNone then remove_none_seq xs
    else remove_none x :: remove_none_seq xs

/-- The generator `((remove_none(k), remove_none(v)) for k, v in obj.items()
if k is not None and v is not None)`. -/
def remove_none_dict : List (PyObj × PyObj) → List (PyObj × PyObj)
  | [] => []
  | (k, v) :: kvs =>
    if k.isNone || v.isNone then remove_none_dict kvs
    else (remove_none k, remove_none v) :: remove_none_dict kvs
end

example : remove_none (.dict [(.str "a", .none), (.str "b", .int 0)])
    = .dict [(.str "b", .int 0)] := by decide

/-! ## `order_data` (backup.py lines 86-94)

`order_data` recursively orders the values of a dict and then rebuilds it as
`OrderedDict(sorted(data.items()))`.  Python's `sorted` on `.items()` compares
`(key, value)` tuples; since a Python dict never holds two equal keys, this is
a sort by key.  The data reaching `order_data` is JSON-decoded API output, so
keys are strings compared by code points; `keyStr` projects a key to the
string Python would compare (non-string keys do not occur in that data). -/

/-- The string a JSON-object key carries (JSON-decoded data has only string
keys; other shapes are mapped to `""` and do not occur on this code path). -/
def keyStr : PyObj → String
  | .str s => s
  | _ => ""

/-- Lexicographic order on character lists by code point: exactly how Python
compares two `str` values. -/
def charListLe : List Char → List Char → Bool
  | [], _ => true
  | _ :: _, [] => false
  | a :: as, b :: bs =>
    if a.toNat = b.toNat then charListLe as bs
    else decide (a.toNat < b.toNat)

theorem charListLe_total : ∀ x y, charListLe x y = true ∨ charListLe y x = true
  | [], _ => Or.inl rfl
  | _ :: _, [] => Or.inr rfl
  | a :: as, b :: bs => by
    by_cases hab : a.toNat = b.toNat
    · rcases charListLe_total as bs with h | h
      · exact Or.inl (by simp [charListLe, hab, h])
      · exact Or.inr (by simp [charListLe, hab.symm, h])
    · rcases Nat.lt_or_ge a.toNat b.toNat with h | h
      · exact Or.inl (by simp [charListLe, hab, h])
      · have hba : b.toNat ≠ a.toNat := fun he => hab he.symm
        have : b.toNat < a.toNat := lt_of_le_of_ne h hba
        exact Or.inr (by simp [charListLe, hba, this])

theorem charListLe_trans :
    ∀ x y z, charListLe x y = true → charListLe y z = true → charListLe x z = true
  | [], _, _, _, _ => rfl
  | a :: as, [], _, h, _ => by simp [charListLe] at h
  | a :: as, b :: bs, [], _, h => by simp [charListLe] at h
  | a :: as, b :: bs, c :: cs, h1, h2 => by
    by_cases hab : a.toNat = b.toNat <;> by_cases hbc : b.toNat = c.toNat
    · have hac : a.toNat = c.toNat := hab.trans hbc
      simp only [charListLe, hab, if_true, hbc, hac] at h1 h2 ⊢
      exact charListLe_trans as bs cs h1 h2
    · have hac : a.toNat ≠ c.toNat := fun he => hbc (hab.symm.trans he)
      simp only [charListLe, hab, if_true, hbc, if_neg hbc, hac, if_neg hac] at h2 ⊢
      simpa [hab] using h2
    · have hac : a.toNat ≠ c.toNat := fun he => hab (he.trans hbc.symm)
      simp only [charListLe, if_neg hab, if_neg hac, hbc] at h1 ⊢
      simpa [hbc] using h1
    · simp only [charListLe, if_neg hab, decide_eq_true_eq] at h1
      simp only [charListLe, if_neg hbc, decide_eq_true_eq] at h2
      have hac : a.toNat < c.toNat := lt_trans h1 h2
      simp [charListLe, Nat.ne_of_lt hac, hac]

theorem char_toNat_inj {a b : Char} (h : a.toNat = b.toNat) : a = b := by
  have h' := congrArg Char.ofNat h
  rwa [Char.ofNat_toNat, Char.ofNat_toNat] at h'

theorem charListLe_antisymm :
    ∀ x y, charListLe x y = true → charListLe y x = true → x = y
  | [], [], _, _ => rfl
  | [], _ :: _, _, h => by simp [charListLe] at h
  | _ :: _, [], h, _ => by simp [charListLe] at h
  | a :: as, b :: bs, h1, h2 => by
    by_cases hab : a.toNat = b.toNat
    · have ha : a = b := char_toNat_inj hab
      simp only [charListLe, hab, if_true] at h1
      simp only [charListLe, hab.symm, if_true] at h2
      rw [ha, charListLe_antisymm as bs h1 h2]
    · have hba : b.toNat ≠ a.toNat := fun he => hab he.symm
      simp only [charListLe, if_neg hab, decide_eq_true_eq] at h1
      simp only [charListLe, if_neg hba, decide_eq_true_eq] at h2
      omega

/-- Python string `≤` (code-point lexicographic). -/
def strLe (s t : String) : Bool := charListLe s.data t.data

theorem strLe_antisymm {s t : String} (h1 : strLe s t = true)
    (h2 : strLe t s = true) : s = t := by
  cases s with
  | mk d1 =>
    cases t with
    | mk d2 => exact congrArg String.mk (charListLe_antisymm d1 d2 h1 h2)

/-- The comparison `sorted(data.items())` effectively uses on the entries of a
(string-keyed, duplicate-free) dict. -/
def pairLe (a b : PyObj × PyObj) : Prop := strLe (keyStr a.1) (keyStr b.1) = true

instance : DecidableRel pairLe := fun a b => by
  unfold pairLe; infer_instance

instance : IsTotal (PyObj × PyObj) pairLe :=
  ⟨fun a b => charListLe_total (keyStr a.1).data (keyStr b.1).data⟩

instance : IsTrans (PyObj × PyObj) pairLe :=
  ⟨fun _ _ _ h h' => charListLe_trans _ _ _ h h'⟩

mutual
/-- `order_data` from backup.py (lines 86-94): recursively sort every dict's
entries by key, map over lists, leave everything else unchanged. -/
def order_data : PyObj → PyObj
  | .dict kvs => .dict (List.insertionSort pairLe (order_data_entries kvs))
  | .list xs => .list (order_data_list xs)
  | .none => .none
  | .bool b => .bool b
  | .int n => .int n
  | .str s => .str s
  | .tuple xs => .tuple xs
  | .set xs => .set xs

/-- The loop `for key, value in data.items(): data[key] = order_data(value)`. -/
def order_data_entries : List (PyObj × PyObj) → List (PyObj × PyObj)
  | [] => []
  | (k, v) :: kvs => (k, order_data v) :: order_data_entries kvs

/-- The comprehension `[order_data(x) for x in data]`. -/
def order_data_list : List PyObj → List PyObj
  | [] => []
  | x :: xs => order_data x :: order_data_list xs
end

example : order_data (.dict [(.str "b", .int 1), (.str "a", .dict [(.str "z", .none), (.str "y", .int 2)])])
    = .dict [(.str "a", .dict [(.str "y", .int 2), (.str "z", .none)]), (.str "b", .int 1)] := by decide

/-! ## Filename sanitization (backup.py lines 117 and 153)

`name = re.sub(r'[\\/:"*?<>|]+', ' ', name)`: every maximal run of characters
from the class is replaced by a single space. -/

/-- Membership in the regex character class `[\\/:"*?<>|]`. -/
def badChar (c : Char) : Bool :=
  c == '\\' || c == '/' || c == ':' || c == '"' || c == '*' || c == '?' ||
    c == '<' || c == '>' || c == '|'

/-- `re.sub(r'[\\/:"*?<>|]+', ' ', ·)` on the character list: the flag records
whether the previous character belonged to the class (i.e. whether we are in
the middle of a run that has already emitted its single space). -/
def sanitizeAux : Bool → List Char → List Char
  | _, [] => []
  | inRun, c :: rest =>
    if badChar c then
      if inRun then sanitizeAux true rest
      else ' ' :: sanitizeAux true rest
    else c :: sanitizeAux false rest

/-- A maximal run of class characters becomes one space, all other characters
are copied. -/
def sanitizeChars (cs : List Char) : List Char := sanitizeAux false cs

/-- The sanitization applied to a display name in `dumps_json` and `dump_xml`. -/
def sanitize_name (s : String) : String := String.mk (sanitizeChars s.data)

example : sanitize_name "Template/A" = "Template A" := by decide
example : sanitize_name "a\\\\//b" = "a b" := by decide

/-! ## `<date>` stripping (backup.py line 160)

`txt = re.sub(r'<date>.*<\/date>', '', txt)`: `.` does not match a newline and
`.*` is greedy, so each match starts at an occurrence of `<date>` and extends
to the last `</date>` that lies on the same line; `re.sub` scans left to
right and continues after each replacement. -/

def dateOpen : List Char := "<date>".data

def dateClose : List Char := "</date>".data

/-- Whether `pat` occurs as a contiguous substring of `cs`. -/
def containsSub (pat : List Char) : List Char → Bool
  | [] => pat.isPrefixOf []
  | c :: rest => pat.isPrefixOf (c :: rest) || containsSub pat rest

/-- Greedy `.*</date>`: the suffix following the last occurrence of
`</date>` that starts before any newline, or `none` when the pattern cannot
match from here. -/
def lastCloseSuffix : List Char → Option (List Char)
  | [] => Option.none
  | c :: rest =>
    if c = '\n' then Option.none
    else
      match lastCloseSuffix rest with
      | Option.some s => Option.some s
      | Option.none =>
        if dateClose.isPrefixOf (c :: rest) then
          Option.some ((c :: rest).drop dateClose.length)
        else Option.none

theorem lastCloseSuffix_length :
    ∀ cs s, lastCloseSuffix cs = Option.some s → s.length < cs.length
  | [], s, h => by simp [lastCloseSuffix] at h
  | c :: rest, s, h => by
    by_cases hc : c = '\n'
    · simp [lastCloseSuffix, hc] at h
    · rw [lastCloseSuffix, if_neg hc] at h
      cases hr : lastCloseSuffix rest with
      | none =>
        rw [hr] at h
        by_cases hp : dateClose.isPrefixOf (c :: rest)
        · simp only [hp, if_true] at h
          cases h
          simp only [List.length_drop]
          have h7 : dateClose.length = 7 := rfl
          simp only [List.length_cons, h7]
          omega
        · simp [hp] at h
      | some s' =>
        rw [hr] at h
        have hss : s' = s := by simpa using h
        subst hss
        exact Nat.lt_succ_of_lt (lastCloseSuffix_length rest s' hr)

/-- `re.sub(r'<date>.*<\/date>', '', ·)`, fuelled so that the recursion is
structural (each step strictly shortens the list, so `cs.length` fuel is
always enough; see `removeDatesFuel_congr`). -/
def removeDatesFuel : Nat → List Char → List Char
  | _, [] => []
  | 0, cs => cs
  | fuel + 1, c :: rest =>
    if dateOpen.isPrefixOf (c :: rest) then
      match lastCloseSuffix ((c :: rest).drop dateOpen.length) with
      | Option.some s => removeDatesFuel fuel s
      | Option.none => c :: removeDatesFuel fuel rest
    else c :: removeDatesFuel fuel rest

/-- `re.sub(r'<date>.*<\/date>', '', ·)` on the character list. -/
def removeDates (cs : List Char) : List Char := removeDatesFuel cs.length cs

theorem removeDatesFuel_nil : ∀ f, removeDatesFuel f [] = []
  | 0 => rfl
  | _ + 1 => rfl

theorem removeDatesFuel_congr :
    ∀ f1 f2 cs, cs.length ≤ f1 → cs.length ≤ f2 →
      removeDatesFuel f1 cs = removeDatesFuel f2 cs
  | f1, f2, [], _, _ => by rw [removeDatesFuel_nil, removeDatesFuel_nil]
  | 0, _, c :: rest, h1, _ => absurd h1 (by simp)
  | _ + 1, 0, c :: rest, _, h2 => absurd h2 (by simp)
  | f1 + 1, f2 + 1, c :: rest, h1, h2 => by
    have h1' : rest.length ≤ f1 := by
      simp only [List.length_cons] at h1; omega
    have h2' : rest.length ≤ f2 := by
      simp only [List.length_cons] at h2; omega
    by_cases hp : dateOpen.isPrefixOf (c :: rest) = true
    · cases hm : lastCloseSuffix ((c :: rest).drop dateOpen.length) with
      | none =>
        simp only [removeDatesFuel, hp, if_true, hm]
        rw [removeDatesFuel_congr f1 f2 rest h1' h2']
      | some s =>
        have hsl : s.length ≤ rest.length := by
          have hlen := lastCloseSuffix_length _ _ hm
          simp only [List.length_drop, List.length_cons] at hlen
          omega
        simp only [removeDatesFuel, hp, if_true, hm]
        exact removeDatesFuel_congr f1 f2 s (le_trans hsl h1') (le_trans hsl h2')
    · simp only [removeDatesFuel, hp, if_false, Bool.false_eq_true]
      rw [removeDatesFuel_congr f1 f2 rest h1' h2']

/-- The one-step unfolding of `removeDates` on a nonempty list. -/
theorem removeDates_cons (c : Char) (rest : List Char) :
    removeDates (c :: rest) =
      if dateOpen.isPrefixOf (c :: rest) then
        match lastCloseSuffix ((c :: rest).drop dateOpen.length) with
        | Option.some s => removeDates s
        | Option.none => c :: removeDates rest
      else c :: removeDates rest := by
  show removeDatesFuel (rest.length + 1) (c :: rest) = _
  by_cases hp : dateOpen.isPrefixOf (c :: rest) = true
  · cases hm : lastCloseSuffix ((c :: rest).drop dateOpen.length) with
    | none => simp only [removeDatesFuel, hp, if_true, hm]; rfl
    | some s =>
      have hsl : s.length ≤ rest.length := by
        have hlen := lastCloseSuffix_length _ _ hm
        simp only [List.length_drop, List.length_cons] at hlen
        omega
      simp only [removeDatesFuel, hp, if_true, hm]
      exact removeDatesFuel_congr _ _ s hsl le_rfl
  · simp only [removeDatesFuel, hp, if_false, Bool.false_eq_true]
    rfl

/-- The date-stripping step of `dump_xml`. -/
def strip_date (txt : String) : String := String.mk (removeDates txt.data)

example : strip_date "<a><date>2024</date><b/></a>" = "<a><b/></a>" := by decide
example : strip_date "<a><date>x\ny</date></a>" = "<a><date>x\ny</date></a>" := by decide

/-! ## `json.dumps(item, indent=4)` (backup.py line 113)

Model of the Python standard-library serializer as called by `dumps_json`:
4-space indentation, `(',', ': ')` separators, `ensure_ascii` escaping.
Library code, modelled faithfully for the value shapes that occur in the
exported data (JSON-decoded API responses: dicts with string keys, lists,
strings, integers, booleans, null). -/

def hexDigit (n : Nat) : Char :=
  if n < 10 then Char.ofNat (48 + n) else Char.ofNat (87 + n)

def hex4 (n : Nat) : String :=
  String.mk [hexDigit (n / 4096 % 16), hexDigit (n / 256 % 16),
    hexDigit (n / 16 % 16), hexDigit (n % 16)]

/-- `ensure_ascii` escaping of one character (surrogate pair above U+FFFF). -/
def jsonEscapeChar (c : Char) : String :=
  if c = '"' then "\\\""
  else if c = '\\' then "\\\\"
  else if c = '\n' then "\\n"
  else if c = '\t' then "\\t"
  else if c = '\r' then "\\r"
  else if c.toNat = 8 then "\\b"
  else if c.toNat = 12 then "\\f"
  else if c.toNat < 32 ∨ c.toNat ≥ 127 then
    if c.toNat < 65536 then "\\u" ++ hex4 c.toNat
    else "\\u" ++ hex4 (55296 + (c.toNat - 65536) / 1024) ++
      "\\u" ++ hex4 (56320 + (c.toNat - 65536) % 1024)
  else String.singleton c

/-- A JSON string literal. -/
def jsonQuote (s : String) : String :=
  "\"" ++ String.join (s.data.map jsonEscapeChar) ++ "\""

/-- How `json.dumps` renders a dict key: strings directly, scalar keys are
coerced to their JSON scalar spelling.  (Container keys raise `TypeError` in
Python and cannot occur: JSON-decoded data has only string keys.) -/
def jsonKey : PyObj → String
  | .str s => jsonQuote s
  | .int n => jsonQuote (toString n)
  | .bool b => jsonQuote (if b then "true" else "false")
  | .none => jsonQuote "null"
  | k => jsonQuote (keyStr k)

def jsonIndent (d : Nat) : String := String.mk (List.replicate (4 * d) ' ')

/-- Join strings with a separator (how the serializer joins the rendered
items with `',\n'`). -/
def joinSep (sep : String) : List String → String
  | [] => ""
  | [x] => x
  | x :: y :: rest => x ++ sep ++ joinSep sep (y :: rest)

mutual
/-- `json.dumps(·, indent=4)` at nesting depth `d`.  (Python's serializer
rejects `set` with `TypeError`; sets cannot occur in JSON-decoded data and
are rendered like sequences here.) -/
def json_dumps_v (d : Nat) : PyObj → String
  | .none => "null"
  | .bool b => if b then "true" else "false"
  | .int n => toString n
  | .str s => jsonQuote s
  | .list xs =>
    if xs.isEmpty then "[]"
    else "[\n" ++ joinSep ",\n" (json_dumps_list (d + 1) xs) ++ "\n" ++ jsonIndent d ++ "]"
  | .tuple xs =>
    if xs.isEmpty then "[]"
    else "[\n" ++ joinSep ",\n" (json_dumps_list (d + 1) xs) ++ "\n" ++ jsonIndent d ++ "]"
  | .set xs =>
    if xs.isEmpty then "[]"
    else "[\n" ++ joinSep ",\n" (json_dumps_list (d + 1) xs) ++ "\n" ++ jsonIndent d ++ "]"
  | .dict kvs =>
    if kvs.isEmpty then "\x7b\x7d"
    else "\x7b\n" ++ joinSep ",\n" (json_dumps_kvs (d + 1) kvs) ++ "\n" ++ jsonIndent d ++ "\x7d"

/-- One rendered line (indentation plus value) per sequence element. -/
def json_dumps_list (d : Nat) : List PyObj → List String
  | [] => []
  | x :: xs => (jsonIndent d ++ json_dumps_v d x) :: json_dumps_list d xs

/-- One rendered line (indentation, key, `': '`, value) per dict entry. -/
def json_dumps_kvs (d : Nat) : List (PyObj × PyObj) → List String
  | [] => []
  | (k, v) :: kvs =>
    (jsonIndent d ++ jsonKey k ++ ": " ++ json_dumps_v d v) :: json_dumps_kvs d kvs
end

/-- `json.dumps(item, indent=4)` as called in `dumps_json`. -/
def json_dumps (item : PyObj) : String := json_dumps_v 0 item

example : json_dumps (.dict [(.str "a", .int 1), (.str "b", .list [.none, .str "x"])])
    = "\x7b\n    \"a\": 1,\n    \"b\": [\n        null,\n        \"x\"\n    ]\n\x7d" := by decide

/-! ## `convert_to_object_without_none` (backup.py lines 130-136)

`anymarkup.parse(txt)` re-reads the JSON text just produced from the item (so
at value level it returns the item itself), `remove_none` strips the nulls,
and `yaml.dump(raw, default_flow_style=False, width=10000)` renders the
result.  `yaml_dump` is a block-style rendering model of that library call;
no claim depends on its exact bytes, only on the value it renders. -/

mutual
/-- Model of `yaml.dump(·, default_flow_style=False)`: scalars inline,
containers in block style. -/
def yaml_dump_v (d : Nat) : PyObj → String
  | .none => "null"
  | .bool b => if b then "true" else "false"
  | .int n => toString n
  | .str s => s
  | .list xs =>
    if xs.isEmpty then "[]" else joinSep "" (yaml_dump_items d xs)
  | .tuple xs =>
    if xs.isEmpty then "[]" else joinSep "" (yaml_dump_items d xs)
  | .set xs =>
    if xs.isEmpty then "[]" else joinSep "" (yaml_dump_items d xs)
  | .dict kvs =>
    if kvs.isEmpty then "\x7b\x7d" else joinSep "" (yaml_dump_entries d kvs)

def yaml_dump_items (d : Nat) : List PyObj → List String
  | [] => []
  | x :: xs =>
    (String.mk (List.replicate (2 * d) ' ') ++ "- " ++ yaml_dump_v (d + 1) x ++ "\n")
      :: yaml_dump_items d xs

def yaml_dump_entries (d : Nat) : List (PyObj × PyObj) → List String
  | [] => []
  | (k, v) :: kvs =>
    (String.mk (List.replicate (2 * d) ' ') ++ keyStr k ++ ": " ++
        yaml_dump_v (d + 1) v ++ "\n") :: yaml_dump_entries d kvs
end

/-- `convert_to_object_without_none` at value level: the value whose yaml
rendering is written, for an input text that serializes `item`. -/
def convert_value (item : PyObj) : PyObj := remove_none item

/-- `convert_to_object_without_none(json.dumps(item, indent=4))`. -/
def convert_to_object_without_none (item : PyObj) : String :=
  yaml_dump_v 0 (convert_value item)

/-! ## `dumps_json` (backup.py lines 97-127) as an event trace

The filesystem effects of one `dumps_json` call, in order: ensure the folder
exists (`os.makedirs`), then one write per item.  `os.path.abspath` only
prefixes the working directory and is dropped (it preserves equality of the
relative names).  Inside the loop the Python order is: `json.dumps` the item,
look the name up (`KeyError` if absent), sanitize it (`TypeError` if not a
string), optionally convert to yaml, then write. -/

inductive Event where
  | mkdir (folder : String)
  | write (filename : String) (content : String)
  deriving Repr, DecidableEq

/-- Python `item[key]`: the value stored under `key`, or `none` when the item
is no dict or lacks the key (Python raises `KeyError`/`TypeError` there). -/
def pyGetItem (item : PyObj) (k : PyObj) : Option PyObj :=
  match item with
  | .dict kvs => (kvs.find? (fun p => pyBeq p.1 k)).map Prod.snd
  | _ => Option.none

/-- The content `dumps_json` writes for one (already key-ordered) item. -/
def dumps_json_item_content (item : PyObj) (save_yaml : Bool) : String :=
  if save_yaml then convert_to_object_without_none item else json_dumps item

/-- The `for item in data:` loop of `dumps_json` over the ordered items:
the writes it performs and the error (if any) that aborts it. -/
def dumps_json_loop (folder key : String) (save_yaml : Bool) :
    List PyObj → List Event × Option String
  | [] => ([], Option.none)
  | item :: rest =>
    match pyGetItem item (.str key) with
    | Option.none => ([], Option.some "KeyError")
    | Option.some nameObj =>
      match nameObj with
      | .str name =>
        let filename := folder ++ "/" ++ sanitize_name name ++ "." ++
          (if save_yaml then "yaml" else "json")
        let r := dumps_json_loop folder key save_yaml rest
        (Event.write filename (dumps_json_item_content item save_yaml) :: r.1, r.2)
      | _ => ([], Option.some "TypeError")

/-- A full `dumps_json(folder, data, key, save_yaml)` call: `data` is
documented to be a list ("должен быть массивом!"); `data = order_data(data)`
maps `order_data` over its items. -/
def dumps_json_run (folder : String) (data : PyObj) (key : String)
    (save_yaml : Bool) : List Event × Option String :=
  match data with
  | .list items =>
    let r := dumps_json_loop folder key save_yaml (order_data_list items)
    (Event.mkdir folder :: r.1, r.2)
  | _ => ([Event.mkdir folder], Option.some "TypeError")

/-! ## `dump_xml` (backup.py lines 139-176) as an event trace

Only the steps the claims touch are modelled: folder creation, filename
sanitization and the `<date>` stripping.  The `xml.dom.minidom` re-indent
and the `&quot;` replacement transform the content further but create no
element and change no filename. -/

/-- The filename `dump_xml` writes to. -/
def dump_xml_filename (folder name : String) (save_yaml : Bool) : String :=
  folder ++ "/" ++ sanitize_name name ++ "." ++ (if save_yaml then "yaml" else "xml")

/-- One `dump_xml` call: ensure the folder, write the date-stripped document
under the sanitized name. -/
def dump_xml_run (folder : String) (txt : String) (name : String)
    (save_yaml : Bool) : List Event :=
  [Event.mkdir folder, Event.write (dump_xml_filename folder name save_yaml) (strip_date txt)]

/-- The files a folder holds after a sequence of filesystem events:
`open(filename, mode="w")` truncates, so a second write to the same name
replaces the first. -/
def applyEvents : List Event → List (String × String) → List (String × String)
  | [], fs => fs
  | Event.mkdir _ :: evs, fs => applyEvents evs fs
  | Event.write f c :: evs, fs => applyEvents evs (upsert fs f c)
where
  upsert : List (String × String) → String → String → List (String × String)
    | [], f, c => [(f, c)]
    | (g, d) :: fs, f, c =>
      if g = f then (f, c) :: fs else (g, d) :: upsert fs f c

/-! ## `get_zabbix_connection` (backup.py lines 34-65)

The two library connection attempts are opaque calls; the resolver's control
flow over their outcomes is modelled with the attempts as parameters.  The
returned pair is (exceptions logged by `logging.exception`, result). -/

/-- `get_zabbix_connection`: try pyzabbix, on exception log it and try
py-zabbix, on exception log it and raise the single fatal error. -/
def get_zabbix_connection {E C : Type} (attempt_pyzabbix attempt_py_zabbix : Except E C) :
    List E × Except String C :=
  match attempt_pyzabbix with
  | .ok conn => ([], .ok conn)
  | .error e1 =>
    match attempt_py_zabbix with
    | .ok conn => ([e1], .ok conn)
    | .error e2 =>
      ([e1, e2], .error "Some error in pyzabbix or py_zabbix module, see logs")

/-! ## Shape predicates used by the specifications -/

mutual
/-- No `None` appears inside any container of the value (a `.none` at the
very top is not a container entry and is allowed). -/
def noneFreeB : PyObj → Bool
  | .list xs => noneFreeSeq xs
  | .tuple xs => noneFreeSeq xs
  | .set xs => noneFreeSeq xs
  | .dict kvs => noneFreeDict kvs
  | _ => true

def noneFreeSeq : List PyObj → Bool
  | [] => true
  | x :: xs => !x.isNone && noneFreeB x && noneFreeSeq xs

def noneFreeDict : List (PyObj × PyObj) → Bool
  | [] => true
  | (k, v) :: kvs =>
    !k.isNone && !v.isNone && noneFreeB k && noneFreeB v && noneFreeDict kvs
end

mutual
/-- The non-null scalar leaves of a value, in traversal order: sequence
elements and dict entry values (keys are names, not data values). -/
def scalarLeaves : PyObj → List PyObj
  | .none => []
  | .bool b => [.bool b]
  | .int n => [.int n]
  | .str s => [.str s]
  | .list xs => scalarLeavesSeq xs
  | .tuple xs => scalarLeavesSeq xs
  | .set xs => scalarLeavesSeq xs
  | .dict kvs => scalarLeavesDict kvs

def scalarLeavesSeq : List PyObj → List PyObj
  | [] => []
  | x :: xs => scalarLeaves x ++ scalarLeavesSeq xs

def scalarLeavesDict : List (PyObj × PyObj) → List PyObj
  | [] => []
  | (_, v) :: kvs => scalarLeaves v ++ scalarLeavesDict kvs
end

mutual
/-- No dict anywhere in the value has a `None` key (true of any document
parsed from markup, whose keys are element names). -/
def noneKeyFree : PyObj → Bool
  | .list xs => noneKeyFreeSeq xs
  | .tuple xs => noneKeyFreeSeq xs
  | .set xs => noneKeyFreeSeq xs
  | .dict kvs => noneKeyFreeDict kvs
  | _ => true

def noneKeyFreeSeq : List PyObj → Bool
  | [] => true
  | x :: xs => noneKeyFree x && noneKeyFreeSeq xs

def noneKeyFreeDict : List (PyObj × PyObj) → Bool
  | [] => true
  | (k, v) :: kvs => !k.isNone && noneKeyFree v && noneKeyFreeDict kvs
end

/-- Whether a value is a Python `str`. -/
def isStrB : PyObj → Bool
  | .str _ => true
  | _ => false

mutual
/-- The value shapes JSON-decoded API data can take: dicts with string keys,
lists and scalars — no tuples, no sets. -/
def jsonLike : PyObj → Bool
  | .list xs => jsonLikeSeq xs
  | .tuple _ => false
  | .set _ => false
  | .dict kvs => jsonLikeDict kvs
  | _ => true

def jsonLikeSeq : List PyObj → Bool
  | [] => true
  | x :: xs => jsonLike x && jsonLikeSeq xs

def jsonLikeDict : List (PyObj × PyObj) → Bool
  | [] => true
  | (k, v) :: kvs => isStrB k && jsonLike v && jsonLikeDict kvs
end

/-- The entry list of a dict value (`[]` for non-dicts). -/
def dictEntries : PyObj → List (PyObj × PyObj)
  | .dict kvs => kvs
  | _ => []

/-- Adjacent-pairs sortedness of a key list under Python string order. -/
def adjSorted : List String → Bool
  | [] => true
  | [_] => true
  | a :: b :: rest => strLe a b && adjSorted (b :: rest)

mutual
/-- Every dict anywhere in the value has its entries sorted by key. -/
def dictsSorted : PyObj → Bool
  | .list xs => dictsSortedSeq xs
  | .tuple xs => dictsSortedSeq xs
  | .set xs => dictsSortedSeq xs
  | .dict kvs => adjSorted (kvs.map (fun p => keyStr p.1)) && dictsSortedDict kvs
  | _ => true

def dictsSortedSeq : List PyObj → Bool
  | [] => true
  | x :: xs => dictsSorted x && dictsSortedSeq xs

def dictsSortedDict : List (PyObj × PyObj) → Bool
  | [] => true
  | (_, v) :: kvs => dictsSorted v && dictsSortedDict kvs
end

mutual
/-- Every dict anywhere in the value has pairwise-distinct key strings — what
being a Python dict (no duplicate keys) guarantees for JSON data. -/
def nodupStrKeys : PyObj → Bool
  | .list xs => nodupStrKeysSeq xs
  | .tuple xs => nodupStrKeysSeq xs
  | .set xs => nodupStrKeysSeq xs
  | .dict kvs =>
    decide ((kvs.map (fun p => keyStr p.1)).Nodup) && nodupStrKeysDict kvs
  | _ => true

def nodupStrKeysSeq : List PyObj → Bool
  | [] => true
  | x :: xs => nodupStrKeys x && nodupStrKeysSeq xs

def nodupStrKeysDict : List (PyObj × PyObj) → Bool
  | [] => true
  | (_, v) :: kvs => nodupStrKeys v && nodupStrKeysDict kvs
end

mutual
/-- Two values are equal up to reordering of dict entries: the relation under
which "the same structured input" is read in the determinism claim.  A dict
may permute its entries; entry keys are unchanged and values are related
recursively; list elements are related pointwise in order. -/
inductive KeyPermEquiv : PyObj → PyObj → Prop where
  | refl (x : PyObj) : KeyPermEquiv x x
  | list {xs ys : List PyObj} : KPEList xs ys → KeyPermEquiv (.list xs) (.list ys)
  | dict {kvs mid kvs' : List (PyObj × PyObj)} :
      KPEEntries kvs mid → mid.Perm kvs' → KeyPermEquiv (.dict kvs) (.dict kvs')

/-- Pointwise `KeyPermEquiv` on lists. -/
inductive KPEList : List PyObj → List PyObj → Prop where
  | nil : KPEList [] []
  | cons {x y xs ys} : KeyPermEquiv x y → KPEList xs ys → KPEList (x :: xs) (y :: ys)

/-- Pointwise entry equivalence: equal keys, equivalent values. -/
inductive KPEEntries : List (PyObj × PyObj) → List (PyObj × PyObj) → Prop where
  | nil : KPEEntries [] []
  | cons {k v w kvs kws} : KeyPermEquiv v w → KPEEntries kvs kws →
      KPEEntries ((k, v) :: kvs) ((k, w) :: kws)
end

/-! ## Basic lemmas -/

theorem isNone_iff : ∀ {x : PyObj}, x.isNone = true ↔ x = PyObj.none := by
  intro x
  cases x <;> simp [PyObj.isNone]

theorem remove_none_isNone : ∀ x : PyObj, (remove_none x).isNone = x.isNone := by
  intro x
  cases x <;> rfl

theorem remove_none_seq_eq :
    ∀ xs : List PyObj,
      remove_none_seq xs = (xs.filter (fun x => !x.isNone)).map remove_none
  | [] => rfl
  | x :: xs => by
    by_cases hx : x.isNone = true
    · simp [remove_none_seq, hx, List.filter_cons, remove_none_seq_eq xs]
    · simp only [Bool.not_eq_true] at hx
      simp [remove_none_seq, hx, List.filter_cons, remove_none_seq_eq xs]

theorem remove_none_dict_eq :
    ∀ kvs : List (PyObj × PyObj),
      remove_none_dict kvs =
        (kvs.filter (fun p => !p.1.isNone && !p.2.isNone)).map
          (fun p => (remove_none p.1, remove_none p.2))
  | [] => rfl
  | (k, v) :: kvs => by
    by_cases hk : k.isNone = true
    · simp [remove_none_dict, hk, List.filter_cons, remove_none_dict_eq kvs]
    · simp only [Bool.not_eq_true] at hk
      by_cases hv : v.isNone = true
      · simp [remove_none_dict, hk, hv, List.filter_cons, remove_none_dict_eq kvs]
      · simp only [Bool.not_eq_true] at hv
        simp [remove_none_dict, hk, hv, List.filter_cons, remove_none_dict_eq kvs]

/-! ## C7 -/

/-- C7: the connection resolver returns the handle of the first successful
attempt — the second attempt's outcome is irrelevant when the first
succeeds — and when both attempts raise it logs both underlying exceptions
and raises exactly one fatal error. -/
theorem C7_connection_resolver {E C : Type} (conn : C) (e1 e2 : E) :
    (∀ attempt2 : Except E C,
        get_zabbix_connection (Except.ok conn) attempt2 = ([], Except.ok conn)) ∧
    get_zabbix_connection (Except.error e1) (Except.ok conn) = ([e1], Except.ok conn) ∧
    get_zabbix_connection (Except.error e1) ((Except.error e2 : Except E C)) =
      ([e1, e2], Except.error "Some error in pyzabbix or py_zabbix module, see logs") :=
  ⟨fun _ => rfl, rfl, rfl⟩

/-! ## C10 -/

/-- C10: `remove_none` removes exactly the elements that are `None` — falsy
non-null values (empty string, zero, false, empty containers) survive — it
also filters sequences and sets, it preserves the container's type, and it
returns any non-container unchanged. -/
theorem C10_remove_none_spec :
    (∀ xs, remove_none (.list xs)
        = .list ((xs.filter (fun x => !x.isNone)).map remove_none)) ∧
    (∀ xs, remove_none (.tuple xs)
        = .tuple ((xs.filter (fun x => !x.isNone)).map remove_none)) ∧
    (∀ xs, remove_none (.set xs)
        = .set ((xs.filter (fun x => !x.isNone)).map remove_none)) ∧
    (∀ kvs, remove_none (.dict kvs)
        = .dict ((kvs.filter (fun p => !p.1.isNone && !p.2.isNone)).map
            (fun p => (remove_none p.1, remove_none p.2)))) ∧
    remove_none .none = .none ∧
    (∀ b, remove_none (.bool b) = .bool b) ∧
    (∀ n, remove_none (.int n) = .int n) ∧
    (∀ s, remove_none (.str s) = .str s) ∧
    remove_none (.dict [(.str "a", .str ""), (.str "b", .int 0),
        (.str "c", .bool false), (.str "d", .list []), (.str "e", .none)])
      = .dict [(.str "a", .str ""), (.str "b", .int 0),
        (.str "c", .bool false), (.str "d", .list [])] :=
  ⟨fun xs => by rw [remove_none, remove_none_seq_eq],
   fun xs => by rw [remove_none, remove_none_seq_eq],
   fun xs => by rw [remove_none, remove_none_seq_eq],
   fun kvs => by rw [remove_none, remove_none_dict_eq],
   rfl, fun _ => rfl, fun _ => rfl, fun _ => rfl, by decide⟩

/-! ## C1 -/

theorem sanitizeAux_no_bad :
    ∀ (flag : Bool) (cs : List Char) (c : Char),
      c ∈ sanitizeAux flag cs → badChar c = false
  | _, [], _, h => absurd h (List.not_mem_nil _)
  | flag, c0 :: rest, c, h => by
    by_cases hb : badChar c0 = true
    · by_cases hf : flag = true
      · rw [sanitizeAux, if_pos hb, if_pos hf] at h
        exact sanitizeAux_no_bad true rest c h
      · simp only [Bool.not_eq_true] at hf
        rw [sanitizeAux, if_pos hb, hf] at h
        simp only [Bool.false_eq_true, if_false, List.mem_cons] at h
        rcases h with h | h
        · rw [h]; decide
        · exact sanitizeAux_no_bad true rest c h
    · simp only [Bool.not_eq_true] at hb
      rw [sanitizeAux, hb] at h
      simp only [Bool.false_eq_true, if_false, List.mem_cons] at h
      rcases h with h | h
      · rw [h, hb]
      · exact sanitizeAux_no_bad false rest c h

theorem sanitizeAux_keeps_good :
    ∀ (g t : List Char), (∀ c ∈ g, badChar c = false) →
      sanitizeAux false (g ++ t) = g ++ sanitizeAux false t
  | [], t, _ => rfl
  | c :: g, t, hg => by
    have hc : badChar c = false := hg c (List.mem_cons_self c g)
    rw [List.cons_append, sanitizeAux, hc]
    simp only [Bool.false_eq_true, if_false, List.cons_append]
    rw [sanitizeAux_keeps_good g t (fun c' hc' => hg c' (List.mem_cons_of_mem c hc'))]

theorem sanitizeAux_run_skip :
    ∀ (r t : List Char), (∀ c ∈ r, badChar c = true) →
      sanitizeAux true (r ++ t) = sanitizeAux true t
  | [], t, _ => rfl
  | c :: r, t, hr => by
    have hc : badChar c = true := hr c (List.mem_cons_self c r)
    rw [List.cons_append, sanitizeAux, if_pos hc, if_pos rfl]
    exact sanitizeAux_run_skip r t (fun c' hc' => hr c' (List.mem_cons_of_mem c hc'))

theorem sanitizeAux_flag_eq :
    ∀ t : List Char, (∀ c, t.head? = Option.some c → badChar c = false) →
      sanitizeAux true t = sanitizeAux false t := by
  intro t ht
  cases t with
  | nil => rfl
  | cons c rest =>
    have hc : badChar c = false := ht c rfl
    rw [sanitizeAux, sanitizeAux, hc]
    simp

/-- C1 counterexample: `re.sub(r'[\\/:"*?<>|]+', ' ', 'Host: "A"')` yields
`'Host   A '` — the space between the colon and the quote is not in the
character class, so the three runs stay separate and the trailing quote
leaves a trailing space — not `'Host A'`. -/
theorem C1_counterexample :
    sanitize_name "Host: \"A\"" = "Host   A " ∧
    sanitize_name "Host: \"A\"" ≠ "Host A" := by
  constructor
  · decide
  · decide

/-- C1 (amended): sanitization removes every character of the class
`\ / : " * ? < > |` from the name and replaces each maximal run of them by a
single space, in both `dumps_json` and `dump_xml`; but the name
`Host: "A"` sanitizes to `Host   A ` (three interior spaces, one trailing),
not to `Host A`. -/
theorem C1_sanitize :
    (∀ (s : String) (c : Char), c ∈ (sanitize_name s).data → badChar c = false) ∧
    (∀ g r rest : List Char,
      (∀ c ∈ g, badChar c = false) →
      r ≠ [] →
      (∀ c ∈ r, badChar c = true) →
      (∀ c, rest.head? = Option.some c → badChar c = false) →
      sanitizeChars (g ++ r ++ rest) = g ++ ' ' :: sanitizeChars rest) ∧
    sanitize_name "Host: \"A\"" = "Host   A " := by
  refine ⟨?_, ?_, by decide⟩
  · intro s c h
    exact sanitizeAux_no_bad false s.data c h
  · intro g r rest hg hr hbad hrest
    cases r with
    | nil => exact absurd rfl hr
    | cons c0 r' =>
      have hc0 : badChar c0 = true := hbad c0 (List.mem_cons_self c0 r')
      unfold sanitizeChars
      rw [List.append_assoc, sanitizeAux_keeps_good g _ hg]
      rw [List.cons_append, sanitizeAux, if_pos hc0]
      simp only [Bool.false_eq_true, if_false]
      rw [sanitizeAux_run_skip r' rest
        (fun c' hc' => hbad c' (List.mem_cons_of_mem c0 hc'))]
      rw [sanitizeAux_flag_eq rest hrest]

/-- Witness for C1: the amended statement applied to the decomposition
`"ab" ++ "/:" ++ "cd"`. -/
theorem C1_sanitize_witness :
    sanitizeChars ("ab".data ++ "/:".data ++ "cd".data)
      = "ab".data ++ ' ' :: sanitizeChars "cd".data :=
  C1_sanitize.2.1 "ab".data "/:".data "cd".data
    (by decide) (by decide) (by decide) (by decide)

/-! ## C2 -/

theorem isPrefixOf_append_self :
    ∀ p t : List Char, p.isPrefixOf (p ++ t) = true := by
  intro p t
  induction p with
  | nil => simp [List.isPrefixOf]
  | cons a as ih => simp [List.isPrefixOf, ih]

theorem open_head {c : Char} {rest : List Char}
    (h : dateOpen.isPrefixOf (c :: rest) = true) : c = '<' := by
  have hd : dateOpen = '<' :: "date>".data := rfl
  rw [hd, List.isPrefixOf] at h
  simp only [Bool.and_eq_true, beq_iff_eq] at h
  exact h.1.symm

theorem close_head {c : Char} {rest : List Char}
    (h : dateClose.isPrefixOf (c :: rest) = true) : c = '<' := by
  have hd : dateClose = '<' :: "/date>".data := rfl
  rw [hd, List.isPrefixOf] at h
  simp only [Bool.and_eq_true, beq_iff_eq] at h
  exact h.1.symm

theorem lastCloseSuffix_no_lt :
    ∀ cs : List Char, '<' ∉ cs → lastCloseSuffix cs = Option.none
  | [], _ => rfl
  | c :: rest, h => by
    have hc : c ≠ '<' := fun he => h (he ▸ List.mem_cons_self c rest)
    by_cases hn : c = '\n'
    · rw [lastCloseSuffix, if_pos hn]
    · rw [lastCloseSuffix, if_neg hn,
        lastCloseSuffix_no_lt rest (fun hm => h (List.mem_cons_of_mem c hm))]
      have hp : dateClose.isPrefixOf (c :: rest) = false := by
        cases hpc : dateClose.isPrefixOf (c :: rest) with
        | false => rfl
        | true => exact absurd (close_head hpc) hc
      rw [hp]
      simp

theorem removeDates_no_lt :
    ∀ cs : List Char, '<' ∉ cs → removeDates cs = cs
  | [], _ => rfl
  | c :: rest, h => by
    have hc : c ≠ '<' := fun he => h (he ▸ List.mem_cons_self c rest)
    have hp : dateOpen.isPrefixOf (c :: rest) = false := by
      cases hpc : dateOpen.isPrefixOf (c :: rest) with
      | false => rfl
      | true => exact absurd (open_head hpc) hc
    rw [removeDates_cons, hp]
    simp only [Bool.false_eq_true, if_false]
    rw [removeDates_no_lt rest (fun hm => h (List.mem_cons_of_mem c hm))]

theorem containsSub_no_lt :
    ∀ cs : List Char, '<' ∉ cs → containsSub dateOpen cs = false
  | [], _ => by decide
  | c :: rest, h => by
    have hc : c ≠ '<' := fun he => h (he ▸ List.mem_cons_self c rest)
    have hp : dateOpen.isPrefixOf (c :: rest) = false := by
      cases hpc : dateOpen.isPrefixOf (c :: rest) with
      | false => rfl
      | true => exact absurd (open_head hpc) hc
    rw [containsSub, hp, containsSub_no_lt rest (fun hm => h (List.mem_cons_of_mem c hm))]
    rfl

theorem lastCloseSuffix_found :
    ∀ mid suf : List Char, '\n' ∉ mid → '<' ∉ mid → '<' ∉ suf →
      lastCloseSuffix (mid ++ dateClose ++ suf) = Option.some suf
  | [], suf, _, _, hsuf => by
    have hshape : ([] : List Char) ++ dateClose ++ suf = '<' :: ("/date>".data ++ suf) := rfl
    rw [hshape, lastCloseSuffix]
    have hne : ('<' : Char) ≠ '\n' := by decide
    rw [if_neg hne]
    have hnolt : '<' ∉ "/date>".data ++ suf := by
      intro hm
      rcases List.mem_append.mp hm with hm | hm
      · revert hm; decide
      · exact hsuf hm
    rw [lastCloseSuffix_no_lt _ hnolt]
    have hpre : dateClose.isPrefixOf ('<' :: ("/date>".data ++ suf)) = true := by
      have : '<' :: ("/date>".data ++ suf) = dateClose ++ suf := rfl
      rw [this]
      exact isPrefixOf_append_self dateClose suf
    rw [hpre]
    simp only [if_true]
    have hdrop : ('<' :: ("/date>".data ++ suf)).drop dateClose.length = suf := by
      have : '<' :: ("/date>".data ++ suf) = dateClose ++ suf := rfl
      rw [this, List.drop_left]
    rw [hdrop]
  | m :: mid', suf, hnl, hlt, hsuf => by
    have hm1 : m ≠ '\n' := fun he => hnl (he ▸ List.mem_cons_self m mid')
    have hshape : (m :: mid') ++ dateClose ++ suf = m :: (mid' ++ dateClose ++ suf) := by
      simp
    rw [hshape, lastCloseSuffix, if_neg hm1,
      lastCloseSuffix_found mid' suf (fun hm => hnl (List.mem_cons_of_mem m hm))
        (fun hm => hlt (List.mem_cons_of_mem m hm)) hsuf]

/-- Prefix testing only inspects the first `p.length` characters. -/
theorem isPrefixOf_eq_of_take_eq :
    ∀ (p u v : List Char), u.take p.length = v.take p.length →
      p.isPrefixOf u = p.isPrefixOf v
  | [], u, v, _ => by simp [List.isPrefixOf]
  | a :: p, [], [], _ => rfl
  | a :: p, [], c :: v, h => by
    simp at h
  | a :: p, b :: u, [], h => by
    simp at h
  | a :: p, b :: u, c :: v, h => by
    simp only [List.length_cons, List.take_succ_cons, List.cons.injEq] at h
    rw [List.isPrefixOf, List.isPrefixOf, h.1,
      isPrefixOf_eq_of_take_eq p u v h.2]

theorem isPrefixOf_mono :
    ∀ (p u w : List Char), p.isPrefixOf u = true → p.isPrefixOf (u ++ w) = true
  | [], u, w, _ => by simp [List.isPrefixOf]
  | a :: p, [], w, h => by simp [List.isPrefixOf] at h
  | a :: p, b :: u, w, h => by
    rw [List.isPrefixOf] at h
    rw [show (b :: u ++ w : List Char) = b :: (u ++ w) from rfl, List.isPrefixOf]
    simp only [Bool.and_eq_true] at h ⊢
    exact ⟨h.1, isPrefixOf_mono p u w h.2⟩

theorem containsSub_append_left (pat : List Char) :
    ∀ a b : List Char, containsSub pat a = true → containsSub pat (a ++ b) = true
  | [], b, h => by
    rw [containsSub] at h
    cases pat with
    | nil =>
      cases b with
      | nil => exact h
      | cons c b => rw [List.nil_append, containsSub]; simp [List.isPrefixOf]
    | cons x p => simp [List.isPrefixOf] at h
  | c :: a, b, h => by
    rw [containsSub] at h
    rw [List.cons_append, containsSub]
    rcases Bool.or_eq_true_iff.mp h with h1 | h1
    · rw [show c :: (a ++ b) = (c :: a) ++ b from rfl, isPrefixOf_mono pat (c :: a) b h1]
      rfl
    · rw [containsSub_append_left pat a b h1]
      simp

theorem containsSub_append_right (pat : List Char) :
    ∀ a b : List Char, containsSub pat b = true → containsSub pat (a ++ b) = true
  | [], _, h => h
  | c :: a, b, h => by
    rw [List.cons_append, containsSub, containsSub_append_right pat a b h]
    simp

/-- The first five characters after a position are the same whether the
remainder continues with `<date>`-and-more or is truncated to `<date`. -/
theorem take5_eq (t rest : List Char) :
    (t ++ (dateOpen ++ rest)).take 5 = (t ++ "<date".data).take 5 := by
  rw [List.take_append_eq_append_take, List.take_append_eq_append_take,
    List.take_append_eq_append_take]
  have h0 : 5 - t.length - dateOpen.length = 0 := by
    have h6 : dateOpen.length = 6 := rfl
    omega
  rw [h0, List.take_zero, List.append_nil]
  have h5 : "<date".data = dateOpen.take 5 := rfl
  rw [h5, List.take_take]
  have hmin : (5 - t.length) ⊓ 5 = 5 - t.length := by omega
  rw [hmin]

/-- `<date>` does not overlap itself: if it does not occur in `t`, it does
not occur in `t` extended by the opening tag's first five characters either
(an occurrence would have to straddle, forcing `<date>` to overlap a copy of
itself, which its characters rule out). -/
theorem containsSub_open_take5 :
    ∀ t : List Char, containsSub dateOpen t = false →
      containsSub dateOpen (t ++ "<date".data) = false
  | [], _ => by decide
  | c :: t, h => by
    rw [containsSub] at h
    have h' := Bool.or_eq_false_iff.mp h
    rw [List.cons_append, containsSub, containsSub_open_take5 t h'.2, Bool.or_false]
    by_cases hlen : 5 ≤ t.length
    · have htake : (t ++ "<date".data).take 5 = t.take 5 := by
        rw [List.take_append_eq_append_take]
        have h0 : 5 - t.length = 0 := by omega
        rw [h0]
        simp
      have heq : (c :: (t ++ "<date".data)).take dateOpen.length
          = (c :: t).take dateOpen.length := by
        have h6 : dateOpen.length = 6 := rfl
        rw [h6, List.take_succ_cons, List.take_succ_cons, htake]
      rw [isPrefixOf_eq_of_take_eq dateOpen _ _ heq]
      exact h'.1
    · cases hpf : dateOpen.isPrefixOf (c :: (t ++ "<date".data)) with
      | false => rfl
      | true =>
        exfalso
        have h6 : dateOpen = (c :: (t ++ "<date".data)).take dateOpen.length :=
          List.prefix_iff_eq_take.mp (List.isPrefixOf_iff_prefix.mp hpf)
        have hlen6 : dateOpen.length = 6 := rfl
        rw [hlen6] at h6
        have htk : t.take 5 = t := List.take_of_length_le (by omega)
        have hcomp : (c :: (t ++ "<date".data)).take 6
            = (c :: t) ++ "<date".data.take (5 - t.length) := by
          rw [List.take_succ_cons, List.take_append_eq_append_take, htk, List.cons_append]
        rw [hcomp] at h6
        have hdrop := congrArg (List.drop (t.length + 1)) h6
        rw [List.drop_left' (by simp)] at hdrop
        have hforce : ∀ m : Nat, m < 6 → 1 ≤ m →
            dateOpen.drop m ≠ "<date".data.take (6 - m) := by decide
        refine hforce (t.length + 1) (by omega) (by omega) ?_
        rw [show 6 - (t.length + 1) = 5 - t.length by omega]
        exact hdrop

/-- The scanner copies a region containing no `<date>` occurrence verbatim:
no match can start in it, not even one straddling into the element that
follows. -/
theorem removeDates_skip :
    ∀ (t rest : List Char), containsSub dateOpen (t ++ "<date".data) = false →
      removeDates (t ++ (dateOpen ++ rest)) = t ++ removeDates (dateOpen ++ rest)
  | [], rest, _ => rfl
  | c :: t, rest, h => by
    rw [List.cons_append, containsSub] at h
    have h' := Bool.or_eq_false_iff.mp h
    simp only [List.cons_append]
    rw [removeDates_cons]
    have heq : (c :: (t ++ (dateOpen ++ rest))).take dateOpen.length
        = (c :: (t ++ "<date".data)).take dateOpen.length := by
      have h6 : dateOpen.length = 6 := rfl
      rw [h6, List.take_succ_cons, List.take_succ_cons, take5_eq]
    have hpf : dateOpen.isPrefixOf (c :: (t ++ (dateOpen ++ rest))) = false := by
      rw [isPrefixOf_eq_of_take_eq dateOpen _ _ heq]
      exact h'.1
    rw [hpf]
    simp only [Bool.false_eq_true, if_false]
    rw [removeDates_skip t rest h'.2]

theorem takeWhile_append_all (p : Char → Bool) :
    ∀ (a b : List Char), (∀ x ∈ a, p x = true) →
      (a ++ b).takeWhile p = a ++ b.takeWhile p
  | [], _, _ => rfl
  | c :: a, b, h => by
    rw [List.cons_append, List.takeWhile_cons, h c (List.mem_cons_self c a),
      takeWhile_append_all p a b (fun x hx => h x (List.mem_cons_of_mem c hx))]
    simp

/-- A `</date>` occurrence must start at a `<`; a `<`-free region before a
close-free tail contributes no occurrence. -/
theorem containsSub_close_append :
    ∀ (a v : List Char), '<' ∉ a → containsSub dateClose v = false →
      containsSub dateClose (a ++ v) = false
  | [], _, _, hv => hv
  | c :: a, v, ha, hv => by
    have hc : c ≠ '<' := fun he => ha (he ▸ List.mem_cons_self c a)
    rw [List.cons_append, containsSub,
      containsSub_close_append a v (fun hm => ha (List.mem_cons_of_mem c hm)) hv,
      Bool.or_false]
    cases hpf : dateClose.isPrefixOf (c :: (a ++ v)) with
    | false => rfl
    | true => exact absurd (close_head hpf) hc

/-- If no `</date>` occurs before the first newline, greedy `.*</date>`
cannot match. -/
theorem lastCloseSuffix_none_of_no_close :
    ∀ u : List Char,
      containsSub dateClose (u.takeWhile (fun c => c ≠ '\n')) = false →
      lastCloseSuffix u = Option.none
  | [], _ => rfl
  | c :: u, h => by
    by_cases hc : c = '\n'
    · rw [lastCloseSuffix, if_pos hc]
    · have htw : (c :: u).takeWhile (fun x => x ≠ '\n')
          = c :: u.takeWhile (fun x => x ≠ '\n') := by
        simp [List.takeWhile_cons, hc]
      rw [htw, containsSub] at h
      have h' := Bool.or_eq_false_iff.mp h
      rw [lastCloseSuffix, if_neg hc, lastCloseSuffix_none_of_no_close u h'.2]
      cases hpf : dateClose.isPrefixOf (c :: u) with
      | false => rfl
      | true =>
        exfalso
        obtain ⟨w, hw⟩ := List.isPrefixOf_iff_prefix.mp hpf
        have hcls : ∀ x ∈ dateClose, (fun x => decide (x ≠ '\n')) x = true := by decide
        have htw2 : (c :: u).takeWhile (fun x => x ≠ '\n')
            = dateClose ++ w.takeWhile (fun x => x ≠ '\n') := by
          rw [← hw, takeWhile_append_all _ _ _ hcls]
        rw [htw] at htw2
        have h1 := h'.1
        rw [htw2] at h1
        rw [isPrefixOf_append_self] at h1
        exact absurd h1 (by simp)

/-- Greedy `.*</date>`: with the content on one line and no later `</date>`
on the line the element ends on, the match ends exactly at this element's
closing tag. -/
theorem lastCloseSuffix_line :
    ∀ (mid suf : List Char), '\n' ∉ mid →
      containsSub dateClose (suf.takeWhile (fun c => c ≠ '\n')) = false →
      lastCloseSuffix (mid ++ dateClose ++ suf) = Option.some suf
  | [], suf, _, hclose => by
    have hshape : ([] : List Char) ++ dateClose ++ suf
        = '<' :: ("/date>".data ++ suf) := rfl
    rw [hshape, lastCloseSuffix, if_neg (show ('<' : Char) ≠ '\n' by decide)]
    have hn : lastCloseSuffix ("/date>".data ++ suf) = Option.none := by
      apply lastCloseSuffix_none_of_no_close
      rw [takeWhile_append_all _ _ _
        (show ∀ x ∈ "/date>".data, (fun x => decide (x ≠ '\n')) x = true by decide)]
      exact containsSub_close_append "/date>".data _ (by decide) hclose
    rw [hn]
    have hpf : dateClose.isPrefixOf ('<' :: ("/date>".data ++ suf)) = true := by
      have e : '<' :: ("/date>".data ++ suf) = dateClose ++ suf := rfl
      rw [e]
      exact isPrefixOf_append_self dateClose suf
    rw [hpf]
    simp only [if_true]
    have hdrop : ('<' :: ("/date>".data ++ suf)).drop dateClose.length = suf := by
      have e : '<' :: ("/date>".data ++ suf) = dateClose ++ suf := rfl
      rw [e, List.drop_left]
    rw [hdrop]
  | m :: mid, suf, hnl, hclose => by
    have hm : m ≠ '\n' := fun he => hnl (he ▸ List.mem_cons_self m mid)
    have hshape : (m :: mid) ++ dateClose ++ suf = m :: (mid ++ dateClose ++ suf) := by
      simp
    rw [hshape, lastCloseSuffix, if_neg hm,
      lastCloseSuffix_line mid suf (fun hmm => hnl (List.mem_cons_of_mem m hmm)) hclose]

/-- A document with no `<date>` occurrence passes through unchanged. -/
theorem removeDates_of_no_open :
    ∀ u : List Char, containsSub dateOpen u = false → removeDates u = u
  | [], _ => rfl
  | c :: u, h => by
    rw [containsSub] at h
    have h' := Bool.or_eq_false_iff.mp h
    rw [removeDates_cons, h'.1]
    simp only [Bool.false_eq_true, if_false]
    rw [removeDates_of_no_open u h'.2]

/-- One match: from the element's opening tag, the scanner deletes through
its closing tag and continues with the rest of the document. -/
theorem removeDates_at_open (mid suf : List Char) (hnl : '\n' ∉ mid)
    (hclose : containsSub dateClose (suf.takeWhile (fun c => c ≠ '\n')) = false) :
    removeDates (dateOpen ++ (mid ++ (dateClose ++ suf))) = removeDates suf := by
  have hshape : dateOpen ++ (mid ++ (dateClose ++ suf))
      = '<' :: ("date>".data ++ (mid ++ (dateClose ++ suf))) := rfl
  rw [hshape, removeDates_cons]
  have hpf : dateOpen.isPrefixOf
      ('<' :: ("date>".data ++ (mid ++ (dateClose ++ suf)))) = true := by
    have e : '<' :: ("date>".data ++ (mid ++ (dateClose ++ suf)))
        = dateOpen ++ (mid ++ (dateClose ++ suf)) := rfl
    rw [e]
    exact isPrefixOf_append_self _ _
  rw [hpf]
  simp only [if_true]
  have hdrop : ('<' :: ("date>".data ++ (mid ++ (dateClose ++ suf)))).drop dateOpen.length
      = mid ++ (dateClose ++ suf) := by
    have e : '<' :: ("date>".data ++ (mid ++ (dateClose ++ suf)))
        = dateOpen ++ (mid ++ (dateClose ++ suf)) := rfl
    rw [e, List.drop_left]
  rw [hdrop, show mid ++ (dateClose ++ suf) = mid ++ dateClose ++ suf by simp,
    lastCloseSuffix_line mid suf hnl hclose]

/-- C2 counterexample: the claim fails in two ways.  The document
`<r><date>a\nb</date></r>` holds a `<date>...</date>` element whose content
spans a newline; `.` in the regex does not match a newline, so nothing is
removed and the output keeps `<date>`.  And in `<da<date>x</date>te>` the
deletion of the (single-line, well-closed) element splices its context into
a brand-new `<date>`, which the scanner, continuing after the deletion
point, never revisits. -/
theorem C2_counterexample :
    containsSub (dateOpen ++ "a\nb".data ++ dateClose) "<r><date>a\nb</date></r>".data = true ∧
    strip_date "<r><date>a\nb</date></r>" = "<r><date>a\nb</date></r>" ∧
    containsSub dateOpen (strip_date "<r><date>a\nb</date></r>").data = true ∧
    containsSub (dateOpen ++ "x".data ++ dateClose) "<da<date>x</date>te>".data = true ∧
    strip_date "<da<date>x</date>te>" = "<date>" ∧
    containsSub dateOpen (strip_date "<da<date>x</date>te>").data = true :=
  ⟨by decide, by decide, by decide, by decide, by decide, by decide⟩

/-- C2 (amended): the stripping step removes a `<date>...</date>` element
with arbitrary markup around it, provided its content stays on one line.
For a document `pre ++ <date> ++ mid ++ </date> ++ suf` with `mid`
newline-free and no further `</date>` on the line the element ends on
(greediness would extend the match there): if `<date>` does not occur in
`pre`, the result is `pre` followed by the stripped rest of the document;
and when `<date>` occurs nowhere else — also not re-assembled across the
deletion seam — the output contains no `<date>` at all.  An element whose
content spans a newline is not removed, and a deletion can splice a new
`<date>` out of its context (see the counterexample), refuting "regardless
of the element's content". -/
theorem C2_strip_date (pre mid suf : List Char)
    (hnl : '\n' ∉ mid)
    (hclose : containsSub dateClose (suf.takeWhile (fun c => c ≠ '\n')) = false) :
    (containsSub dateOpen pre = false →
      removeDates (pre ++ dateOpen ++ mid ++ dateClose ++ suf)
        = pre ++ removeDates suf) ∧
    (containsSub dateOpen (pre ++ suf) = false →
      removeDates (pre ++ dateOpen ++ mid ++ dateClose ++ suf) = pre ++ suf ∧
      containsSub dateOpen (pre ++ suf) = false) := by
  have hmain : containsSub dateOpen pre = false →
      removeDates (pre ++ dateOpen ++ mid ++ dateClose ++ suf)
        = pre ++ removeDates suf := by
    intro hpre
    have hassoc : pre ++ dateOpen ++ mid ++ dateClose ++ suf
        = pre ++ (dateOpen ++ (mid ++ (dateClose ++ suf))) := by
      simp [List.append_assoc]
    rw [hassoc, removeDates_skip pre _ (containsSub_open_take5 pre hpre),
      removeDates_at_open mid suf hnl hclose]
  refine ⟨hmain, fun hopen => ?_⟩
  have hpre : containsSub dateOpen pre = false := by
    cases hp : containsSub dateOpen pre with
    | false => rfl
    | true =>
      have hcontr := containsSub_append_left dateOpen pre suf hp
      rw [hopen] at hcontr
      exact absurd hcontr (by simp)
  have hsuf : containsSub dateOpen suf = false := by
    cases hs : containsSub dateOpen suf with
    | false => rfl
    | true =>
      have hcontr := containsSub_append_right dateOpen pre suf hs
      rw [hopen] at hcontr
      exact absurd hcontr (by simp)
  exact ⟨by rw [hmain hpre, removeDates_of_no_open suf hsuf], hopen⟩

/-- Witness for C2 (amended): a date element inside real surrounding markup,
`<r><x>1</x><date>2024</date></r>`, loses exactly the element. -/
theorem C2_strip_date_witness :
    removeDates ("<r><x>1</x>".data ++ dateOpen ++ "2024".data ++ dateClose ++ "</r>".data)
        = "<r><x>1</x>".data ++ "</r>".data ∧
    containsSub dateOpen ("<r><x>1</x>".data ++ "</r>".data) = false :=
  (C2_strip_date "<r><x>1</x>".data "2024".data "</r>".data
    (by decide) (by decide)).2 (by decide)

/-! ## C3 -/

mutual
theorem noneFree_remove : ∀ v, noneFreeB (remove_none v) = true
  | .none => rfl
  | .bool _ => rfl
  | .int _ => rfl
  | .str _ => rfl
  | .list xs => noneFree_remove_seq xs
  | .tuple xs => noneFree_remove_seq xs
  | .set xs => noneFree_remove_seq xs
  | .dict kvs => noneFree_remove_dict kvs

theorem noneFree_remove_seq : ∀ xs, noneFreeSeq (remove_none_seq xs) = true
  | [] => rfl
  | x :: xs => by
    by_cases hx : x.isNone = true
    · rw [remove_none_seq, if_pos hx]
      exact noneFree_remove_seq xs
    · simp only [Bool.not_eq_true] at hx
      rw [remove_none_seq, hx]
      simp only [Bool.false_eq_true, if_false, noneFreeSeq]
      rw [remove_none_isNone, hx, noneFree_remove x, noneFree_remove_seq xs]
      rfl

theorem noneFree_remove_dict : ∀ kvs, noneFreeDict (remove_none_dict kvs) = true
  | [] => rfl
  | (k, v) :: kvs => by
    by_cases hkv : (k.isNone || v.isNone) = true
    · rw [remove_none_dict, if_pos hkv]
      exact noneFree_remove_dict kvs
    · rw [remove_none_dict, if_neg (by simp [hkv])]
      simp only [Bool.or_eq_true, not_or, Bool.not_eq_true] at hkv
      simp only [noneFreeDict]
      rw [remove_none_isNone, remove_none_isNone, hkv.1, hkv.2,
        noneFree_remove k, noneFree_remove v, noneFree_remove_dict kvs]
      rfl
end

theorem remove_none_eq_str : ∀ {k : PyObj} {s : String},
    remove_none k = .str s → k = .str s := by
  intro k s h
  cases k <;> simp_all [remove_none]

/-- C3: on the alternate-format path the converted value is `None`-free at
every nesting depth; an entry whose key holds only null is absent from the
converted dict; non-null siblings are retained (values converted
recursively); and the stripping happens only when `save_yaml` is set — on the
json path the serialized text of a null-valued entry still says `null`. -/
theorem C3_null_stripping :
    (∀ v, noneFreeB (remove_none v) = true) ∧
    (∀ (kvs : List (PyObj × PyObj)) (s : String),
      (PyObj.str s, PyObj.none) ∈ kvs →
      (∀ p ∈ kvs, p.1 = PyObj.str s → p.2 = PyObj.none) →
      ∀ v, (PyObj.str s, v) ∉ dictEntries (remove_none (.dict kvs))) ∧
    (∀ (kvs : List (PyObj × PyObj)) (p : PyObj × PyObj), p ∈ kvs →
      p.1.isNone = false → p.2.isNone = false →
      (remove_none p.1, remove_none p.2) ∈ dictEntries (remove_none (.dict kvs))) ∧
    (∀ item, dumps_json_item_content item true = yaml_dump_v 0 (remove_none item)) ∧
    (∀ item, dumps_json_item_content item false = json_dumps item) ∧
    containsSub "null".data (dumps_json_item_content
      (order_data (.dict [(.str "a", PyObj.none), (.str "b", .int 0)])) false).data = true ∧
    convert_value (order_data (.dict [(.str "a", PyObj.none), (.str "b", .int 0)]))
      = .dict [(.str "b", .int 0)] := by
  refine ⟨noneFree_remove, ?_, ?_, fun _ => rfl, fun _ => rfl, by decide, by decide⟩
  · intro kvs s _ hall v hmem
    rw [remove_none] at hmem
    simp only [dictEntries] at hmem
    rw [remove_none_dict_eq] at hmem
    rcases List.mem_map.mp hmem with ⟨q, hq, hqe⟩
    rcases List.mem_filter.mp hq with ⟨hqmem, hqpred⟩
    simp only [Bool.and_eq_true, Bool.not_eq_true'] at hqpred
    have hk : remove_none q.1 = .str s := by
      have := congrArg Prod.fst hqe
      simpa using this
    have hq1 : q.1 = .str s := remove_none_eq_str hk
    have hv : q.2 = PyObj.none := hall q hqmem hq1
    rw [hv] at hqpred
    exact absurd hqpred.2 (by decide)
  · intro kvs p hp h1 h2
    rw [remove_none]
    simp only [dictEntries]
    rw [remove_none_dict_eq]
    exact List.mem_map.mpr ⟨p, List.mem_filter.mpr ⟨hp, by rw [h1, h2]; rfl⟩, rfl⟩

/-- Witness for C3: its sibling-retention and key-absence parts at the dict
`{"a": None, "b": 0}`. -/
theorem C3_null_stripping_witness :
    ((PyObj.str "b", PyObj.int 0) ∈
        ([(.str "a", PyObj.none), (.str "b", .int 0)] : List (PyObj × PyObj))) ∧
    (remove_none (PyObj.str "b"), remove_none (PyObj.int 0)) ∈
      dictEntries (remove_none (.dict [(.str "a", PyObj.none), (.str "b", .int 0)])) ∧
    ¬ (PyObj.str "a", PyObj.none) ∈
      dictEntries (remove_none (.dict [(.str "a", PyObj.none), (.str "b", .int 0)])) :=
  ⟨by decide,
   C3_null_stripping.2.2.1 [(.str "a", PyObj.none), (.str "b", .int 0)]
     (PyObj.str "b", PyObj.int 0) (by decide) (by decide) (by decide),
   C3_null_stripping.2.1 _ "a" (by decide) (by decide) PyObj.none⟩

/-! ## C8 -/

mutual
theorem scalarLeaves_remove : ∀ v, noneKeyFree v = true →
    scalarLeaves (remove_none v) = scalarLeaves v
  | .none, _ => rfl
  | .bool _, _ => rfl
  | .int _, _ => rfl
  | .str _, _ => rfl
  | .list xs, h => scalarLeaves_remove_seq xs h
  | .tuple xs, h => scalarLeaves_remove_seq xs h
  | .set xs, h => scalarLeaves_remove_seq xs h
  | .dict kvs, h => scalarLeaves_remove_dict kvs h

theorem scalarLeaves_remove_seq : ∀ xs, noneKeyFreeSeq xs = true →
    scalarLeavesSeq (remove_none_seq xs) = scalarLeavesSeq xs
  | [], _ => rfl
  | x :: xs, h => by
    rw [noneKeyFreeSeq, Bool.and_eq_true] at h
    by_cases hx : x.isNone = true
    · have hxn : x = PyObj.none := isNone_iff.mp hx
      rw [remove_none_seq, if_pos hx, scalarLeaves_remove_seq xs h.2, hxn,
        scalarLeavesSeq]
      rfl
    · simp only [Bool.not_eq_true] at hx
      rw [remove_none_seq, hx]
      simp only [Bool.false_eq_true, if_false, scalarLeavesSeq]
      rw [scalarLeaves_remove x h.1, scalarLeaves_remove_seq xs h.2]

theorem scalarLeaves_remove_dict : ∀ kvs, noneKeyFreeDict kvs = true →
    scalarLeavesDict (remove_none_dict kvs) = scalarLeavesDict kvs
  | [], _ => rfl
  | (k, v) :: kvs, h => by
    rw [noneKeyFreeDict] at h
    simp only [Bool.and_eq_true, Bool.not_eq_true'] at h
    by_cases hv : v.isNone = true
    · have hvn : v = PyObj.none := isNone_iff.mp hv
      rw [remove_none_dict, if_pos (by rw [h.1.1, hv]; rfl),
        scalarLeaves_remove_dict kvs h.2, hvn, scalarLeavesDict]
      rfl
    · simp only [Bool.not_eq_true] at hv
      rw [remove_none_dict, if_neg (by rw [h.1.1, hv]; simp)]
      simp only [scalarLeavesDict]
      rw [scalarLeaves_remove v h.1.2, scalarLeaves_remove_dict kvs h.2]
end

/-- C8: at value level, the only transformation the yaml conversion applies
to the parsed document is `remove_none`, and it preserves the list of
non-null scalar leaf values (in traversal order) of any document whose dicts
have no `None` key — in particular of anything parsed from markup, whose
keys are element names.  (The markup↔value parse/render library calls are
modelled as faithful inverses.) -/
theorem C8_roundtrip (v : PyObj) (h : noneKeyFree v = true) :
    scalarLeaves (convert_value v) = scalarLeaves v :=
  scalarLeaves_remove v h

/-- Witness for C8 at `{"a": {"b": None, "c": 1}, "d": [None, "x"]}`. -/
theorem C8_roundtrip_witness :
    noneKeyFree (.dict [(.str "a", .dict [(.str "b", PyObj.none), (.str "c", .int 1)]),
        (.str "d", .list [PyObj.none, .str "x"])]) = true ∧
    scalarLeaves (convert_value (.dict [(.str "a", .dict [(.str "b", PyObj.none), (.str "c", .int 1)]),
        (.str "d", .list [PyObj.none, .str "x"])]))
      = scalarLeaves (.dict [(.str "a", .dict [(.str "b", PyObj.none), (.str "c", .int 1)]),
        (.str "d", .list [PyObj.none, .str "x"])]) :=
  ⟨by decide, C8_roundtrip _ (by decide)⟩

/-! ## C6 -/

theorem order_data_list_eq_map : ∀ xs, order_data_list xs = xs.map order_data
  | [] => rfl
  | x :: xs => by rw [order_data_list, List.map_cons, order_data_list_eq_map xs]

theorem order_data_entries_eq_map :
    ∀ kvs, order_data_entries kvs = kvs.map (fun p => (p.1, order_data p.2))
  | [] => rfl
  | (k, v) :: kvs => by
    rw [order_data_entries, List.map_cons, order_data_entries_eq_map kvs]

theorem adjSorted_of_sorted : ∀ l : List (PyObj × PyObj), l.Sorted pairLe →
    adjSorted (l.map (fun p => keyStr p.1)) = true
  | [], _ => rfl
  | [_], _ => rfl
  | a :: b :: t, h => by
    rw [List.map_cons, List.map_cons, adjSorted, Bool.and_eq_true]
    rcases List.sorted_cons.mp h with ⟨hrel, htail⟩
    refine ⟨hrel b (List.mem_cons_self b t), ?_⟩
    have hrec := adjSorted_of_sorted (b :: t) htail
    rw [List.map_cons] at hrec
    exact hrec

theorem dictsSortedDict_iff_all : ∀ l : List (PyObj × PyObj),
    (dictsSortedDict l = true ↔ ∀ p ∈ l, dictsSorted p.2 = true)
  | [] => by simp [dictsSortedDict]
  | (k, v) :: kvs => by
    rw [dictsSortedDict, Bool.and_eq_true, dictsSortedDict_iff_all kvs]
    constructor
    · rintro ⟨h1, h2⟩ p hp
      rcases List.mem_cons.mp hp with rfl | hp
      · exact h1
      · exact h2 p hp
    · intro h
      exact ⟨h (k, v) (List.mem_cons_self _ _),
        fun p hp => h p (List.mem_cons_of_mem _ hp)⟩

mutual
theorem dictsSorted_order : ∀ v, jsonLike v = true → dictsSorted (order_data v) = true
  | .none, _ => rfl
  | .bool _, _ => rfl
  | .int _, _ => rfl
  | .str _, _ => rfl
  | .tuple _, h => absurd h (by simp [jsonLike])
  | .set _, h => absurd h (by simp [jsonLike])
  | .list xs, h => dictsSorted_order_seq xs h
  | .dict kvs, h => by
    rw [order_data]
    show (adjSorted ((List.insertionSort pairLe (order_data_entries kvs)).map
        (fun p => keyStr p.1)) && dictsSortedDict
        (List.insertionSort pairLe (order_data_entries kvs))) = true
    rw [Bool.and_eq_true]
    constructor
    · exact adjSorted_of_sorted _ (List.sorted_insertionSort pairLe _)
    · have hall := dictsSorted_order_entries kvs h
      rw [dictsSortedDict_iff_all] at hall ⊢
      intro p hp
      exact hall p ((List.perm_insertionSort pairLe _).subset hp)

theorem dictsSorted_order_seq : ∀ xs, jsonLikeSeq xs = true →
    dictsSortedSeq (order_data_list xs) = true
  | [], _ => rfl
  | x :: xs, h => by
    rw [jsonLikeSeq, Bool.and_eq_true] at h
    rw [order_data_list]
    show (dictsSorted (order_data x) && dictsSortedSeq (order_data_list xs)) = true
    rw [Bool.and_eq_true]
    exact ⟨dictsSorted_order x h.1, dictsSorted_order_seq xs h.2⟩

theorem dictsSorted_order_entries : ∀ kvs, jsonLikeDict kvs = true →
    dictsSortedDict (order_data_entries kvs) = true
  | [], _ => rfl
  | (k, v) :: kvs, h => by
    rw [jsonLikeDict] at h
    simp only [Bool.and_eq_true] at h
    rw [order_data_entries]
    show (dictsSorted (order_data v) && dictsSortedDict (order_data_entries kvs)) = true
    rw [Bool.and_eq_true]
    exact ⟨dictsSorted_order v h.1.2, dictsSorted_order_entries kvs h.2⟩
end

/-- C6: on JSON-shaped data (dicts with string keys, lists, scalars — what
the structured-data path receives), `order_data` leaves every dict, at every
nesting depth, sorted by key under Python's string order; a dict's entries
after ordering are a permutation of its recursively ordered original entries;
a list maps to the ordered elements in unchanged positions; scalars are
unchanged. -/
theorem C6_order_data :
    (∀ v, jsonLike v = true → dictsSorted (order_data v) = true) ∧
    (∀ xs, order_data (.list xs) = .list (xs.map order_data)) ∧
    (∀ kvs, (dictEntries (order_data (.dict kvs))).Perm
        (kvs.map (fun p => (p.1, order_data p.2)))) ∧
    order_data .none = .none ∧
    (∀ b, order_data (.bool b) = .bool b) ∧
    (∀ n, order_data (.int n) = .int n) ∧
    (∀ s, order_data (.str s) = .str s) := by
  refine ⟨dictsSorted_order, ?_, ?_, rfl, fun _ => rfl, fun _ => rfl, fun _ => rfl⟩
  · intro xs
    rw [order_data, order_data_list_eq_map]
  · intro kvs
    rw [order_data]
    simp only [dictEntries]
    rw [← order_data_entries_eq_map]
    exact List.perm_insertionSort pairLe _

/-- Witness for C6 at the nested dict `{"b": {"d": 1, "c": 2}, "a": 3}`. -/
theorem C6_order_data_witness :
    jsonLike (.dict [(.str "b", .dict [(.str "d", .int 1), (.str "c", .int 2)]),
        (.str "a", .int 3)]) = true ∧
    dictsSorted (order_data (.dict [(.str "b", .dict [(.str "d", .int 1), (.str "c", .int 2)]),
        (.str "a", .int 3)])) = true :=
  ⟨by decide, C6_order_data.1 _ (by decide)⟩

/-! ## C4 -/

theorem eq_of_perm_sorted_nodupKeys :
    ∀ l1 l2 : List (PyObj × PyObj), l1.Perm l2 → l1.Sorted pairLe →
      l2.Sorted pairLe → (l1.map (fun p => keyStr p.1)).Nodup → l1 = l2
  | [], l2, hp, _, _, _ => hp.nil_eq
  | a :: l1, l2, hp, hs1, hs2, hn => by
    cases l2 with
    | nil => exact absurd hp.symm.nil_eq (by simp)
    | cons b l2 =>
      have hab : a = b := by
        by_contra hab
        have ha2 : a ∈ b :: l2 := hp.subset (List.mem_cons_self a l1)
        have hb1 : b ∈ a :: l1 := hp.symm.subset (List.mem_cons_self b l2)
        have hab2 : a ∈ l2 := by
          rcases List.mem_cons.mp ha2 with h | h
          · exact absurd h hab
          · exact h
        have hba1 : b ∈ l1 := by
          rcases List.mem_cons.mp hb1 with h | h
          · exact absurd h.symm hab
          · exact h
        have h1 : strLe (keyStr a.1) (keyStr b.1) = true :=
          (List.sorted_cons.mp hs1).1 b hba1
        have h2 : strLe (keyStr b.1) (keyStr a.1) = true :=
          (List.sorted_cons.mp hs2).1 a hab2
        have hkey : keyStr a.1 = keyStr b.1 := strLe_antisymm h1 h2
        rw [List.map_cons, List.nodup_cons] at hn
        exact hn.1 (hkey ▸ List.mem_map.mpr ⟨b, hba1, rfl⟩)
      subst hab
      have hp' := hp.cons_inv
      have htail := eq_of_perm_sorted_nodupKeys l1 l2 hp'
        (List.sorted_cons.mp hs1).2 (List.sorted_cons.mp hs2).2
        (by rw [List.map_cons, List.nodup_cons] at hn; exact hn.2)
      rw [htail]

theorem nodupStrKeysSeq_eq_all :
    ∀ xs : List PyObj, nodupStrKeysSeq xs = xs.all nodupStrKeys
  | [] => rfl
  | x :: xs => by rw [nodupStrKeysSeq, List.all_cons, nodupStrKeysSeq_eq_all xs]

theorem nodupStrKeysDict_eq_all :
    ∀ kvs : List (PyObj × PyObj),
      nodupStrKeysDict kvs = kvs.all (fun p => nodupStrKeys p.2)
  | [] => rfl
  | (k, v) :: kvs => by
    rw [nodupStrKeysDict, List.all_cons, nodupStrKeysDict_eq_all kvs]

theorem entries_keyStr_map :
    ∀ kvs : List (PyObj × PyObj),
      (order_data_entries kvs).map (fun p => keyStr p.1)
        = kvs.map (fun p => keyStr p.1)
  | [] => rfl
  | (k, v) :: kvs => by
    rw [order_data_entries, List.map_cons, List.map_cons, entries_keyStr_map kvs]

mutual
theorem ord_eq : ∀ a b, KeyPermEquiv a b → nodupStrKeys a = true →
    nodupStrKeys b = true → order_data a = order_data b
  | _, _, .refl _, _, _ => rfl
  | _, _, .list hl, h1, h2 => by
    rw [order_data, order_data, ord_eq_list _ _ hl h1 h2]
  | _, _, @KeyPermEquiv.dict kvs mid kvs' hent hperm, h1, h2 => by
    rw [order_data, order_data]
    rw [nodupStrKeys] at h1 h2
    simp only [Bool.and_eq_true] at h1 h2
    have hmid : nodupStrKeysDict mid = true := by
      rw [nodupStrKeysDict_eq_all, List.all_eq_true]
      intro p hp
      have hp' : p ∈ kvs' := hperm.subset hp
      have h2' := h2.2
      rw [nodupStrKeysDict_eq_all, List.all_eq_true] at h2'
      exact h2' p hp'
    have hstep1 : order_data_entries kvs = order_data_entries mid :=
      ord_eq_entries _ _ hent h1.2 hmid
    have hstep2 : (order_data_entries mid).Perm (order_data_entries kvs') := by
      rw [order_data_entries_eq_map, order_data_entries_eq_map]
      exact hperm.map _
    have hperm_all : (List.insertionSort pairLe (order_data_entries kvs)).Perm
        (List.insertionSort pairLe (order_data_entries kvs')) :=
      ((List.perm_insertionSort pairLe _).trans
        ((hstep1 ▸ hstep2).trans (List.perm_insertionSort pairLe _).symm))
    have hnodup : ((List.insertionSort pairLe (order_data_entries kvs)).map
        (fun p => keyStr p.1)).Nodup := by
      have hkeys : ((List.insertionSort pairLe (order_data_entries kvs)).map
          (fun p => keyStr p.1)).Perm (kvs.map (fun p => keyStr p.1)) := by
        rw [← entries_keyStr_map kvs]
        exact (List.perm_insertionSort pairLe _).map _
      exact hkeys.nodup_iff.mpr (of_decide_eq_true h1.1)
    rw [eq_of_perm_sorted_nodupKeys _ _ hperm_all
      (List.sorted_insertionSort pairLe _) (List.sorted_insertionSort pairLe _) hnodup]

theorem ord_eq_list : ∀ xs ys, KPEList xs ys → nodupStrKeysSeq xs = true →
    nodupStrKeysSeq ys = true → order_data_list xs = order_data_list ys
  | _, _, .nil, _, _ => rfl
  | _, _, .cons hx hxs, h1, h2 => by
    rw [nodupStrKeysSeq, Bool.and_eq_true] at h1 h2
    rw [order_data_list, order_data_list, ord_eq _ _ hx h1.1 h2.1,
      ord_eq_list _ _ hxs h1.2 h2.2]

theorem ord_eq_entries : ∀ kvs kws, KPEEntries kvs kws →
    nodupStrKeysDict kvs = true → nodupStrKeysDict kws = true →
    order_data_entries kvs = order_data_entries kws
  | _, _, .nil, _, _ => rfl
  | _, _, .cons hv hrest, h1, h2 => by
    rw [nodupStrKeysDict, Bool.and_eq_true] at h1 h2
    rw [order_data_entries, order_data_entries, ord_eq _ _ hv h1.1 h2.1,
      ord_eq_entries _ _ hrest h1.2 h2.2]
end

/-- C4: serializing the same structured input through the structured-data
path gives byte-identical output regardless of dict key order: for two
values equal up to dict-entry reordering (with duplicate-free string keys,
as Python dicts of JSON data are), `order_data` canonicalizes them to the
same value, so the serialized text — on either output format — is
byte-identical. -/
theorem C4_deterministic (a b : PyObj) (he : KeyPermEquiv a b)
    (ha : nodupStrKeys a = true) (hb : nodupStrKeys b = true) :
    order_data a = order_data b ∧
    json_dumps (order_data a) = json_dumps (order_data b) ∧
    (∀ save_yaml, dumps_json_item_content (order_data a) save_yaml
      = dumps_json_item_content (order_data b) save_yaml) := by
  have h := ord_eq a b he ha hb
  exact ⟨h, by rw [h], fun _ => by rw [h]⟩

/-- Witness for C4: the dicts `{"a": 1, "b": {"d": 2, "c": 3}}` and
`{"b": {"c": 3, "d": 2}, "a": 1}` differ only in key order and serialize to
the same bytes. -/
theorem C4_deterministic_witness :
    json_dumps (order_data (.dict [(.str "a", .int 1),
        (.str "b", .dict [(.str "d", .int 2), (.str "c", .int 3)])]))
      = json_dumps (order_data (.dict [(.str "b", .dict [(.str "c", .int 3), (.str "d", .int 2)]),
        (.str "a", .int 1)])) :=
  (C4_deterministic _ _
    (@KeyPermEquiv.dict
      [(.str "a", .int 1), (.str "b", .dict [(.str "d", .int 2), (.str "c", .int 3)])]
      [(.str "a", .int 1), (.str "b", .dict [(.str "c", .int 3), (.str "d", .int 2)])]
      [(.str "b", .dict [(.str "c", .int 3), (.str "d", .int 2)]), (.str "a", .int 1)]
      (KPEEntries.cons (KeyPermEquiv.refl _)
        (KPEEntries.cons
          (@KeyPermEquiv.dict
            [(.str "d", .int 2), (.str "c", .int 3)]
            [(.str "d", .int 2), (.str "c", .int 3)]
            [(.str "c", .int 3), (.str "d", .int 2)]
            (KPEEntries.cons (KeyPermEquiv.refl _)
              (KPEEntries.cons (KeyPermEquiv.refl _) KPEEntries.nil))
            (by decide))
          KPEEntries.nil))
      (by decide))
    (by decide) (by decide)).2.1

/-! ## C5 -/

/-- C5: `Template A` and `Template/A` both sanitize to `Template A`; on the
structured-data path the second item's write targets the same filename and
overwrites the first, leaving exactly one file for the two items; two
`dump_xml` calls with those names behave the same way.  The surviving content
is the second item's. -/
theorem C5_collision_overwrite :
    sanitize_name "Template A" = "Template A" ∧
    sanitize_name "Template/A" = "Template A" ∧
    (dumps_json_run "templates" (.list [.dict [(.str "name", .str "Template A")],
        .dict [(.str "name", .str "Template/A")]]) "name" false).2 = Option.none ∧
    applyEvents (dumps_json_run "templates" (.list [.dict [(.str "name", .str "Template A")],
        .dict [(.str "name", .str "Template/A")]]) "name" false).1 []
      = [("templates/Template A.json",
          json_dumps (order_data (.dict [(.str "name", .str "Template/A")])))] ∧
    applyEvents (dump_xml_run "templates" "<a/>" "Template A" false ++
        dump_xml_run "templates" "<b/>" "Template/A" false) []
      = [("templates/Template A.xml", strip_date "<b/>")] :=
  ⟨by decide, by decide, by decide, by decide, by decide⟩

/-! ## C9 -/

theorem order_data_list_append : ∀ xs ys : List PyObj,
    order_data_list (xs ++ ys) = order_data_list xs ++ order_data_list ys := by
  intro xs ys
  rw [order_data_list_eq_map, order_data_list_eq_map, order_data_list_eq_map,
    List.map_append]

theorem dumps_json_loop_append (folder key : String) (sy : Bool) :
    ∀ A B, (dumps_json_loop folder key sy A).2 = Option.none →
      dumps_json_loop folder key sy (A ++ B)
        = ((dumps_json_loop folder key sy A).1 ++ (dumps_json_loop folder key sy B).1,
            (dumps_json_loop folder key sy B).2)
  | [], B, _ => by simp [dumps_json_loop]
  | item :: A, B, h => by
    rw [List.cons_append]
    cases hk : pyGetItem item (.str key) with
    | none =>
      exfalso
      rw [dumps_json_loop] at h
      simp only [hk] at h
      exact absurd h (by simp)
    | some nameObj =>
      cases nameObj with
      | str name =>
        rw [dumps_json_loop] at h ⊢
        simp only [hk] at h ⊢
        have h' : (dumps_json_loop folder key sy A).2 = Option.none := by
          simpa using h
        rw [dumps_json_loop_append folder key sy A B h']
        rw [dumps_json_loop]
        simp [hk]
      | none =>
        exfalso; rw [dumps_json_loop] at h; simp only [hk] at h
        exact absurd h (by simp)
      | bool b =>
        exfalso; rw [dumps_json_loop] at h; simp only [hk] at h
        exact absurd h (by simp)
      | int n =>
        exfalso; rw [dumps_json_loop] at h; simp only [hk] at h
        exact absurd h (by simp)
      | list xs =>
        exfalso; rw [dumps_json_loop] at h; simp only [hk] at h
        exact absurd h (by simp)
      | tuple xs =>
        exfalso; rw [dumps_json_loop] at h; simp only [hk] at h
        exact absurd h (by simp)
      | set xs =>
        exfalso; rw [dumps_json_loop] at h; simp only [hk] at h
        exact absurd h (by simp)
      | dict kvs =>
        exfalso; rw [dumps_json_loop] at h; simp only [hk] at h
        exact absurd h (by simp)

/-- C9: when an item of the sequence lacks the configured name field,
`dumps_json` aborts with a `KeyError` at that item; the folder-creation step
has already run and every earlier item's file has already been written —
nothing is rolled back and nothing after the failing item is written. -/
theorem C9_missing_key (folder key : String) (sy : Bool)
    (pre : List PyObj) (item : PyObj) (post : List PyObj)
    (hpre : (dumps_json_loop folder key sy (order_data_list pre)).2 = Option.none)
    (hitem : pyGetItem (order_data item) (.str key) = Option.none) :
    dumps_json_run folder (.list (pre ++ item :: post)) key sy
      = (Event.mkdir folder :: (dumps_json_loop folder key sy (order_data_list pre)).1,
          Option.some "KeyError") := by
  rw [dumps_json_run]
  have hsplit : order_data_list (pre ++ item :: post)
      = order_data_list pre ++ (order_data item :: order_data_list post) := by
    rw [order_data_list_append, order_data_list]
  rw [hsplit, dumps_json_loop_append folder key sy _ _ hpre]
  rw [dumps_json_loop]
  simp only [hitem]
  simp

/-- Witness for C9: second item lacks `"name"`; the first item's file is
written, the third item is never reached. -/
theorem C9_missing_key_witness :
    dumps_json_run "actions" (.list [.dict [(.str "name", .str "ok")],
        .dict [(.str "id", .int 7)], .dict [(.str "name", .str "later")]]) "name" false
      = (Event.mkdir "actions" ::
          (dumps_json_loop "actions" "name" false
            (order_data_list [.dict [(.str "name", .str "ok")]])).1,
          Option.some "KeyError") :=
  C9_missing_key "actions" "name" false
    [.dict [(.str "name", .str "ok")]] (.dict [(.str "id", .int 7)])
    [.dict [(.str "name", .str "later")]] (by decide) (by decide)
